import Mathlib

/- Verification of the SleepFormer pipeline (actinetcrf.py): the windowing
preprocessor of SleepDataset, the semantics of the ActiNetCRF model's
forward operation, and the reassembly / event-extraction stages of
predict_events. Machine floats are modelled as rationals; the real-valued
log-space quantities of the CRF are modelled over the reals. A raised
Python exception is modelled as none / a distinguished outcome. -/

namespace SleepFormer

/-- A window chunk as built by SleepDataset.preprocess_data: aligned slices of
the feature rows (anglez, enmo), the timestamps, the step indices and, on
non-test data, the labels of one series. -/
structure Chunk where
  sid : String
  step : List ℤ
  timestamp : List ℚ
  data : List (ℚ × ℚ)
  label : Option (List ℚ)
deriving DecidableEq

/-- The start indices visited by the Python loop for i in range(0, L, W), for
a positive stride W. -/
def rangeStarts (L W : ℕ) : List ℕ :=
  (List.range ((L + W - 1) / W)).map (· * W)

/-- SleepDataset.preprocess_data restricted to one series: for each start
index i the loop slices data[i:i+W], timestamp[i:i+W], step[i:i+W] (and
label[i:i+W] when is_test is false) and keeps the chunk only if the data
slice has exactly W rows. -/
def preprocessData (sid : String) (W : ℕ) (isTest : Bool)
    (data : List (ℚ × ℚ)) (ts : List ℚ) (step : List ℤ) (label : List ℚ) : List Chunk :=
  (rangeStarts data.length W).filterMap (fun i =>
    if ((data.drop i).take W).length = W then
      some { sid := sid, step := (step.drop i).take W, timestamp := (ts.drop i).take W,
             data := (data.drop i).take W,
             label := if isTest then none else some ((label.drop i).take W) }
    else none)

/-- Outcome of preprocess_data's timestamp handling for one series: either the
pd.to_datetime conversion succeeds and the chunks are produced, or the bare
except branch drops into an interactive debugger via breakpoint() - no
exception propagates and no validation error is reported at that point. -/
inductive PreprocessOutcome where
  | ok (chunks : List Chunk)
  | debuggerBreakpoint
deriving DecidableEq

/-- pd.to_datetime over the whole timestamp column: the first unparseable
entry makes the conversion of the column fail. -/
def parseAll (parse : String → Option ℚ) : List String → Option (List ℚ)
  | [] => some []
  | s :: r =>
    match parse s with
    | none => none
    | some t => (parseAll parse r).map (fun ts => t :: ts)

/-- preprocess_data for one series including the timestamp conversion: on a
parse failure the code runs breakpoint() instead of raising an
input-validation error. -/
def preprocessDataChecked (parse : String → Option ℚ) (sid : String) (W : ℕ) (isTest : Bool)
    (data : List (ℚ × ℚ)) (rawTs : List String) (step : List ℤ) (label : List ℚ) :
    PreprocessOutcome :=
  match parseAll parse rawTs with
  | none => .debuggerBreakpoint
  | some ts => .ok (preprocessData sid W isTest data ts step label)

/-- One row of the event table built in predict_events. The seriesId field
holds the value of the curr_series variable, which is initialized to None and
never reassigned anywhere in the function. -/
structure EventRow where
  rowId : ℕ
  seriesId : Option String
  step : ℤ
  event : String
  score : ℚ
deriving DecidableEq

/-- The inner loop of the transition scan: walk zip(preds[1:], steps[1:]),
and whenever the prediction changes, append one row whose row_id is the
current number of rows, typed wakeup if the new state is 1 and onset
otherwise, with score 1.0. -/
def scanGo (currSeries : Option String) : ℕ → List (ℕ × ℤ) → List EventRow → List EventRow
  | _, [], acc => acc
  | currState, (pred, st) :: rest, acc =>
    if pred ≠ currState then
      scanGo currSeries pred rest
        (acc ++ [{ rowId := acc.length, seriesId := currSeries, step := st,
                   event := if pred = 1 then "wakeup" else "onset", score := 1 }])
    else
      scanGo currSeries currState rest acc

/-- The outer loop over pred_dict.items(): reading preds[0] of a series with
no samples raises an IndexError, modelled as none; curr_series is threaded
through unchanged because the source never assigns it. -/
def scanItems (currSeries : Option String) :
    List EventRow → List (String × (List ℕ × List ℤ)) → Option (List EventRow)
  | acc, [] => some acc
  | acc, (_, (preds, steps)) :: rest =>
    match preds with
    | [] => none
    | p :: ptl => scanItems currSeries (scanGo currSeries p (ptl.zip (steps.drop 1)) acc) rest

/-- The transition scan of predict_events over the cleaned per-series dict:
curr_series starts as None and is never updated, so it is passed unchanged to
every appended row. -/
def predictRows (d : List (String × (List ℕ × List ℤ))) : Option (List EventRow) :=
  scanItems none [] d

/-- Modelled from the spec: remove_outliers is called in predict_events but is
not present in src. Section 4.4 specifies a length-preserving suppression of
isolated single-step flips surrounded by the opposite state on both sides; we
realize exactly that rule, judging each position against its original
neighbours. -/
def removeOutliersGo (p : ℕ) : List ℕ → List ℕ
  | [] => []
  | [a] => [a]
  | a :: b :: r => (if p = b ∧ a ≠ p then p else a) :: removeOutliersGo a (b :: r)

/-- Modelled from the spec: outlier removal over one cleaned series; the first
and last samples have only one neighbour and are kept. -/
def removeOutliers : List ℕ → List ℕ
  | [] => []
  | a :: r => a :: removeOutliersGo a r

/-- Modelled from the spec: get_local_best is called in predict_events but is
not present in src. Section 4.4 specifies only its contract - a local
re-scoring smoothing pass, length preserving and idempotent, with the exact
rule left open (section 9). We realize it as a left-to-right pass absorbing
every label that differs both from the already smoothed previous label and
from the next label into the previous label. -/
def localBestGo (p : ℕ) : List ℕ → List ℕ
  | [] => []
  | [a] => [a]
  | a :: b :: r =>
    if a ≠ p ∧ a ≠ b then p :: localBestGo p (b :: r) else a :: localBestGo a (b :: r)

/-- Modelled from the spec: the local-best refinement over one cleaned series;
the first sample anchors the pass and is kept. -/
def getLocalBest : List ℕ → List ℕ
  | [] => []
  | a :: r => a :: localBestGo a r

/-- Modelled from the spec (section 4.2): all label sequences of length n over
k classes, enumerated lexicographically with the lower-indexed class first. -/
def allSeqs (k : ℕ) : ℕ → List (List (Fin k))
  | 0 => [[]]
  | n + 1 => ((List.finRange k).map (fun c => (allSeqs k n).map (fun s => c :: s))).flatten

/-- Transition-score part of a path score: the learned matrix T summed over
adjacent label pairs of the sequence. -/
def transSum {k : ℕ} (T : Fin k → Fin k → ℚ) : List (Fin k) → ℚ
  | [] => 0
  | [_] => 0
  | a :: b :: r => T a b + transSum T (b :: r)

/-- Modelled from the spec (section 4.2): the path score of a label sequence,
the per-step emission scores plus the transition scores over adjacent pairs. -/
def pathScore {k : ℕ} (e : List (Fin k → ℚ)) (T : Fin k → Fin k → ℚ)
    (tags : List (Fin k)) : ℚ :=
  (List.zipWith (fun f c => f c) e tags).sum + transSum T tags

/-- First maximizer of f in a list: a later element replaces the current best
only on a strictly larger value, so ties resolve to the earlier element. -/
def argmaxFirst {α : Type} (f : α → ℚ) : List α → Option α
  | [] => none
  | x :: xs =>
    match argmaxFirst f xs with
    | none => some x
    | some y => if f x < f y then some y else some x

/-- Modelled from the spec (section 4.2): Viterbi decoding specified by its
defining property - the maximum-score label sequence over the chain, ties
resolved toward the lower-indexed class via the enumeration order. -/
def crfDecode {k : ℕ} (e : List (Fin k → ℚ)) (T : Fin k → Fin k → ℚ) : List (Fin k) :=
  (argmaxFirst (pathScore e T) (allSeqs k e.length)).getD []

/-- Modelled from the spec (section 4.2): the partition function - the sum of
exponentiated path scores over all label sequences of the chain length. -/
noncomputable def crfPartition {k : ℕ} (e : List (Fin k → ℚ)) (T : Fin k → Fin k → ℚ) : ℝ :=
  ((allSeqs k e.length).map (fun y => Real.exp ((pathScore e T y : ℚ) : ℝ))).sum

/-- Negative log-likelihood of one chain: the log-partition function minus the
path score of the true labels, the value of -crf(logits, tags) per chain. -/
noncomputable def crfNll {k : ℕ} (e : List (Fin k → ℚ)) (T : Fin k → Fin k → ℚ)
    (tags : List (Fin k)) : ℝ :=
  Real.log (crfPartition e T) - ((pathScore e T tags : ℚ) : ℝ)

/-- Column extraction from a 2-D tensor stored as rows: column j collects
entry j of every row, and the column count is read off the first row - this
is how torchcrf walks emissions[i][j] with i along dim 0 (its time axis) and
j along dim 1 (its batch axis, of size emissions.shape[1]). -/
def tensorCols {α : Type} (B : List (List α)) : List (List α) :=
  match B with
  | [] => []
  | r :: _ => (List.range r.length).map (fun j => B.filterMap (fun row => row[j]?))

/-- The CRF layer in src line 84 is constructed as CRF(num_classes), leaving
torchcrf's batch_first at False, while the logits produced by fc are
batch-first of shape (batch, window length, classes). torchcrf therefore
treats the first axis - the batch axis - as the time axis: decode returns one
decoded sequence per window position, each of batch length, i.e. the decoded
sequences of the columns of the batch-first logits. The per-window emission
scores of the conv / BiLSTM / fc pipeline are abstracted as the function
net. -/
def modelDecodeTorch {ι : Type} {k : ℕ} (net : ι → List (Fin k → ℚ))
    (T : Fin k → Fin k → ℚ) (batch : List ι) : List (List (Fin k)) :=
  (tensorCols (batch.map net)).map (fun col => crfDecode col T)

/-- The per-window Viterbi decoding the spec describes (section 4.2): one
maximum-score sequence per window of the batch. Stated from the spec's words
for comparison with modelDecodeTorch. -/
def modelDecodeSpec {ι : Type} {k : ℕ} (net : ι → List (Fin k → ℚ))
    (T : Fin k → Fin k → ℚ) (batch : List ι) : List (List (Fin k)) :=
  batch.map (fun w => crfDecode (net w) T)

/-- Training-mode output of ActiNetCRFModel.forward: -crf(logits, tags) with
torchcrf's sum reduction over its batch axis, which - batch_first being left
False - is the window-position axis of the batch-first logits: one chain per
window position, running across the windows of the batch. -/
noncomputable def modelLossTorch {ι : Type} {k : ℕ} (net : ι → List (Fin k → ℚ))
    (T : Fin k → Fin k → ℚ) (batch : List ι) (tags : List (List (Fin k))) : ℝ :=
  (((tensorCols (batch.map net)).zip (tensorCols tags)).map
    (fun col => crfNll col.1 T col.2)).sum

/-- Modelled from the spec (section 4.3): one append step of pred_to_dict -
the sample is appended to its series entry, preserving arrival order; a new
series gets a fresh entry at the end. -/
def dictAppend : List (String × (List ℕ × List ℤ)) → String → ℕ → ℤ →
    List (String × (List ℕ × List ℤ))
  | [], s, p, st => [(s, ([p], [st]))]
  | (s0, (ps, ss)) :: rest, s, p, st =>
    if s0 = s then (s0, (ps ++ [p], ss ++ [st])) :: rest
    else (s0, (ps, ss)) :: dictAppend rest s p st

/-- Fold of dictAppend over the three aligned flat lists. -/
def predToDictGo (acc : List (String × (List ℕ × List ℤ))) :
    List String → List ℕ → List ℤ → List (String × (List ℕ × List ℤ))
  | s :: sr, p :: pr, st :: str => predToDictGo (dictAppend acc s p st) sr pr str
  | _, _, _ => acc

/-- Modelled from the spec (section 4.3): pred_to_dict groups the flat
collected series-id, prediction and step lists into per-series aligned
preds / steps vectors - a pure concatenation in arrival order, with no
reordering and no deduplication. -/
def predToDict (sids : List String) (preds : List ℕ) (steps : List ℤ) :
    List (String × (List ℕ × List ℤ)) :=
  predToDictGo [] sids preds steps

/-- A minibatch as delivered by the test DataLoader: the stacked feature
windows, the series ids and the stacked step vectors. -/
structure PyBatch where
  data : List (List (ℚ × ℚ))
  seriesId : List String
  step : List (List ℤ)
deriving DecidableEq

/-- A Python value flowing through predict_events: a float tensor, an integer
tensor, or the plain list of lists of ints returned by CRF.decode. -/
inductive PyVal where
  | floatTensor3 (t : List (List (List ℚ)))
  | floatTensor2 (t : List (List ℚ))
  | intTensor2 (t : List (List ℕ))
  | pyList (l : List (List ℕ))
deriving DecidableEq

/-- Largest entry of a row, for torch.max values. -/
def rowMax : List ℚ → ℚ
  | [] => 0
  | a :: r => r.foldl max a

/-- Index of the first maximal entry of a row, for torch.max indices. -/
def argmaxIdx (l : List ℚ) : ℕ :=
  ((argmaxFirst (fun p => p.2) l.enum).map (fun p => p.1)).getD 0

/-- torch.max(input, dim): the input must be a Tensor - a plain Python list
raises TypeError, modelled as none; on a 3-D float tensor with dim = 2 it
returns the (values, indices) pair along the last axis. -/
def torchMax (v : PyVal) (dim : ℕ) : Option (PyVal × PyVal) :=
  match v with
  | .pyList _ => none
  | .floatTensor3 t =>
    if dim = 2 then
      some (.floatTensor2 (t.map (fun m => m.map rowMax)),
            .intTensor2 (t.map (fun m => m.map argmaxIdx)))
    else none
  | _ => none

/-- The body of the collection loop of predict_events for one batch: the
model's inference output - a plain Python list of decoded sequences - is fed
to torch.max(logits, 2), which raises TypeError on a non-tensor input; were a
result produced, the loop would keep only row 0 of the predictions, the first
series id repeated to that row's length, and row 0 of the steps. -/
def collectBatch (net : List (ℚ × ℚ) → List (Fin 2 → ℚ)) (T : Fin 2 → Fin 2 → ℚ)
    (b : PyBatch) : Option (List ℕ × List String × List ℤ) :=
  match torchMax (.pyList ((modelDecodeTorch net T b.data).map (fun s => s.map Fin.val))) 2 with
  | none => none
  | some (_, .intTensor2 preds) =>
    match preds, b.seriesId, b.step with
    | p0 :: _, s0 :: _, st0 :: _ => some (p0, (List.replicate p0.length s0, st0))
    | _, _, _ => none
  | some _ => none

/-- The whole collection loop: per-batch triples concatenated in order; a
raised exception in any iteration aborts the run. -/
def collectAll (net : List (ℚ × ℚ) → List (Fin 2 → ℚ)) (T : Fin 2 → Fin 2 → ℚ) :
    List PyBatch → Option (List ℕ × List String × List ℤ)
  | [] => some ([], ([], []))
  | b :: rest =>
    match collectBatch net T b, collectAll net T rest with
    | some (p, (s, st)), some (pr, (sr, str)) => some (p ++ pr, (s ++ sr, st ++ str))
    | _, _ => none

/-- predict_events end to end: collect per batch (reading only index 0 of
each), group with pred_to_dict, clean each series' predictions with
remove_outliers then get_local_best, and run the transition scan. A raised
exception at any stage is none. -/
def predictEvents (net : List (ℚ × ℚ) → List (Fin 2 → ℚ)) (T : Fin 2 → Fin 2 → ℚ)
    (batches : List PyBatch) : Option (List EventRow) :=
  match collectAll net T batches with
  | none => none
  | some (preds, (sids, steps)) =>
    predictRows ((predToDict sids preds steps).map
      (fun e => (e.1, (getLocalBest (removeOutliers e.2.1), e.2.2))))

/-- A concrete two-step emission table for exercising the decode semantics:
step 1 favours class 0, step 2 slightly favours class 1. -/
def demoNet : Unit → List (Fin 2 → ℚ) :=
  fun _ => [fun c => if c.val = 0 then 1 else 0, fun c => if c.val = 1 then 2 else 0]

/-- A concrete transition matrix strongly favouring staying in the same
class. -/
def demoTrans : Fin 2 → Fin 2 → ℚ := fun a b => if a = b then 10 else 0

/- ===================== Theorems ===================== -/

/-- A slice data[i:i+W] is full exactly when i + W fits inside the list. -/
theorem chunk_full_iff {W : ℕ} (hW : 0 < W) (x : List (ℚ × ℚ)) (m : ℕ) :
    ((x.drop m).take W).length = W ↔ m + W ≤ x.length := by
  rw [List.length_take, List.length_drop, min_eq_left_iff]
  omega

theorem filterMap_eq_map_of_forall {α β : Type} (l : List α) (g : α → Option β) (f : α → β)
    (h : ∀ x ∈ l, g x = some (f x)) : l.filterMap g = l.map f := by
  induction l with
  | nil => rfl
  | cons a t ih =>
    rw [List.filterMap_cons, h a (List.mem_cons_self a t), List.map_cons,
      ih (fun x hx => h x (List.mem_cons_of_mem a hx))]

theorem filterMap_eq_nil_of_forall {α β : Type} (l : List α) (g : α → Option β)
    (h : ∀ x ∈ l, g x = none) : l.filterMap g = [] := by
  induction l with
  | nil => rfl
  | cons a t ih =>
    rw [List.filterMap_cons, h a (List.mem_cons_self a t),
      ih (fun x hx => h x (List.mem_cons_of_mem a hx))]

/-- A filterMap over range N whose guard holds exactly below n ≤ N is the map
over range n. -/
theorem filterMap_range_stride {β : Type} (g : ℕ → β) (P : ℕ → Prop) [DecidablePred P]
    (N n : ℕ) (hn : n ≤ N) (hiff : ∀ j, P j ↔ j < n) :
    (List.range N).filterMap (fun j => if P j then some (g j) else none) =
      (List.range n).map g := by
  have hsplit : N = n + (N - n) := by omega
  rw [hsplit, List.range_add, List.filterMap_append]
  rw [filterMap_eq_map_of_forall _ _ g
      (fun j hj => by rw [if_pos ((hiff j).mpr (List.mem_range.mp hj))]),
    filterMap_eq_nil_of_forall _ _
      (fun j hj => by
        obtain ⟨x, _, rfl⟩ := List.mem_map.mp hj
        rw [if_neg (fun hpj => by have := (hiff _).mp hpj; omega)]),
    List.append_nil]

/-- The chunk loop of preprocess_data produces exactly the chunks at start
indices 0, W, ..., (L/W - 1)·W: the trailing partial slice is dropped. -/
theorem preprocessData_eq (sid : String) (W : ℕ) (isTest : Bool)
    (data : List (ℚ × ℚ)) (ts : List ℚ) (step : List ℤ) (label : List ℚ) (hW : 0 < W) :
    preprocessData sid W isTest data ts step label =
      (List.range (data.length / W)).map (fun j =>
        { sid := sid, step := (step.drop (j * W)).take W,
          timestamp := (ts.drop (j * W)).take W, data := (data.drop (j * W)).take W,
          label := if isTest then none else some ((label.drop (j * W)).take W) }) := by
  unfold preprocessData rangeStarts
  rw [List.filterMap_map]
  exact filterMap_range_stride
    (fun j => ({ sid := sid, step := (step.drop (j * W)).take W,
                 timestamp := (ts.drop (j * W)).take W, data := (data.drop (j * W)).take W,
                 label := if isTest then none
                          else some ((label.drop (j * W)).take W) } : Chunk))
    (fun j => ((data.drop (j * W)).take W).length = W)
    ((data.length + W - 1) / W) (data.length / W)
    (Nat.div_le_div_right (by omega))
    (fun j => by
      show ((data.drop (j * W)).take W).length = W ↔ j < data.length / W
      rw [chunk_full_iff hW data (j * W), show j * W + W = (j + 1) * W from by ring,
        ← Nat.le_div_iff_mul_le hW]
      omega)

/-- Concatenating n successive width-W slices of a list recovers its first
n·W elements. -/
theorem flatten_slices {α : Type} (x : List α) (W : ℕ) :
    ∀ n : ℕ, ((List.range n).map (fun j => (x.drop (j * W)).take W)).flatten
      = x.take (n * W) := by
  intro n
  induction n with
  | zero => simp
  | succ m ih =>
    rw [List.range_succ, List.map_append, List.flatten_append]
    simp only [List.map_cons, List.map_nil, List.flatten_cons, List.flatten_nil,
      List.append_nil, ih]
    rw [show (m + 1) * W = m * W + W from by ring, List.take_add]

/-- C2: for every series of length L and positive window length W, the
windowing loop of SleepDataset.preprocess_data yields exactly L / W windows,
each of exactly W consecutive samples, non-overlapping and in order - their
concatenation is exactly the prefix data[0 : (L/W)·W] - and the j-th window is
the slice starting at j·W; the trailing remainder is discarded. -/
theorem claim2_windower_coverage (sid : String) (W : ℕ) (isTest : Bool)
    (data : List (ℚ × ℚ)) (ts : List ℚ) (step : List ℤ) (label : List ℚ)
    (hW : 0 < W) :
    (preprocessData sid W isTest data ts step label).length = data.length / W
    ∧ (∀ c ∈ preprocessData sid W isTest data ts step label, c.data.length = W)
    ∧ ((preprocessData sid W isTest data ts step label).map Chunk.data).flatten
        = data.take (data.length / W * W)
    ∧ ∀ j, j < data.length / W →
        ((preprocessData sid W isTest data ts step label).map Chunk.data)[j]?
          = some ((data.drop (j * W)).take W) := by
  have he := preprocessData_eq sid W isTest data ts step label hW
  refine ⟨?_, ?_, ?_, ?_⟩
  · rw [he, List.length_map, List.length_range]
  · intro c hc
    rw [he] at hc
    obtain ⟨j, hj, rfl⟩ := List.mem_map.mp hc
    have hj' : j < data.length / W := List.mem_range.mp hj
    have hle : (j + 1) * W ≤ data.length := (Nat.le_div_iff_mul_le hW).mp hj'
    have hfit : j * W + W ≤ data.length := by
      rw [show j * W + W = (j + 1) * W from by ring]; exact hle
    show ((data.drop (j * W)).take W).length = W
    rw [chunk_full_iff hW]
    exact hfit
  · rw [he, List.map_map]
    exact flatten_slices data W (data.length / W)
  · intro j hj
    rw [he, List.map_map, List.getElem?_map, List.getElem?_range hj]
    rfl

/-- Witness for C2 at a concrete series of length 5 and window length 2. -/
theorem claim2_witness :
    (0 < 2)
    ∧ ((preprocessData "s1" 2 false [(0, 0), (1, 1), (2, 2), (3, 3), (4, 4)]
          [10, 11, 12, 13, 14] [0, 1, 2, 3, 4] [1, 1, 0, 0, 1]).length
        = [(0, 0), (1, 1), (2, 2), (3, 3), (4, 4)].length / 2
      ∧ (∀ c ∈ preprocessData "s1" 2 false [(0, 0), (1, 1), (2, 2), (3, 3), (4, 4)]
            [10, 11, 12, 13, 14] [0, 1, 2, 3, 4] [1, 1, 0, 0, 1], c.data.length = 2)
      ∧ ((preprocessData "s1" 2 false [(0, 0), (1, 1), (2, 2), (3, 3), (4, 4)]
            [10, 11, 12, 13, 14] [0, 1, 2, 3, 4] [1, 1, 0, 0, 1]).map Chunk.data).flatten
          = [(0, 0), (1, 1), (2, 2), (3, 3), (4, 4)].take
              ([(0, 0), (1, 1), (2, 2), (3, 3), (4, 4)].length / 2 * 2)
      ∧ ∀ j, j < [(0, 0), (1, 1), (2, 2), (3, 3), (4, 4)].length / 2 →
          ((preprocessData "s1" 2 false [(0, 0), (1, 1), (2, 2), (3, 3), (4, 4)]
              [10, 11, 12, 13, 14] [0, 1, 2, 3, 4] [1, 1, 0, 0, 1]).map Chunk.data)[j]?
            = some (([(0, 0), (1, 1), (2, 2), (3, 3), (4, 4)].drop (j * 2)).take 2)) :=
  ⟨by decide,
   claim2_windower_coverage "s1" 2 false [(0, 0), (1, 1), (2, 2), (3, 3), (4, 4)]
     [10, 11, 12, 13, 14] [0, 1, 2, 3, 4] [1, 1, 0, 0, 1] (by decide)⟩

/-- C10: every chunk kept by preprocess_data - in training mode and in test
mode alike - has its data, timestamp, step and (when ground-truth labels are
present, i.e. in training mode) label fields sliced from the same contiguous
index range [i, i + W) of the series' columns, and - when those columns have
the same length as the feature column - each present field has exactly W
entries; in test mode the label field is absent. -/
theorem claim10_chunk_alignment (sid : String) (W : ℕ) (isTest : Bool)
    (data : List (ℚ × ℚ)) (ts : List ℚ) (step : List ℤ) (label : List ℚ)
    (hW : 0 < W) (hts : ts.length = data.length) (hstep : step.length = data.length)
    (hlabel : label.length = data.length)
    (c : Chunk) (hc : c ∈ preprocessData sid W isTest data ts step label) :
    ∃ i, i + W ≤ data.length
      ∧ c.data = (data.drop i).take W ∧ c.timestamp = (ts.drop i).take W
      ∧ c.step = (step.drop i).take W
      ∧ c.label = (if isTest then none else some ((label.drop i).take W))
      ∧ c.data.length = W ∧ c.timestamp.length = W ∧ c.step.length = W
      ∧ (isTest = false → ∃ lv, c.label = some lv ∧ lv.length = W)
      ∧ (isTest = true → c.label = none) := by
  rw [preprocessData_eq sid W isTest data ts step label hW] at hc
  obtain ⟨j, hj, rfl⟩ := List.mem_map.mp hc
  have hj' : j < data.length / W := List.mem_range.mp hj
  have hle : (j + 1) * W ≤ data.length := (Nat.le_div_iff_mul_le hW).mp hj'
  have hfit : j * W + W ≤ data.length := by
    rw [show j * W + W = (j + 1) * W from by ring]; exact hle
  refine ⟨j * W, hfit, rfl, rfl, rfl, rfl, ?_, ?_, ?_, ?_, ?_⟩
  · rw [List.length_take, List.length_drop, min_eq_left_iff]; omega
  · rw [List.length_take, List.length_drop, min_eq_left_iff]; omega
  · rw [List.length_take, List.length_drop, min_eq_left_iff]; omega
  · intro hf
    subst hf
    refine ⟨(label.drop (j * W)).take W, rfl, ?_⟩
    rw [List.length_take, List.length_drop, min_eq_left_iff]; omega
  · intro htr
    subst htr
    rfl

/-- Witness for C10 at a concrete aligned series with window length 1,
exercising both the training-mode and the test-mode chunk. -/
theorem claim10_witness :
    (0 < 1 ∧ ([(5 : ℚ)].length = [((0 : ℚ), (0 : ℚ))].length)
      ∧ ([(7 : ℤ)].length = [((0 : ℚ), (0 : ℚ))].length)
      ∧ ([(1 : ℚ)].length = [((0 : ℚ), (0 : ℚ))].length)
      ∧ ({ sid := "s1", step := [7], timestamp := [5], data := [(0, 0)],
           label := some [1] } : Chunk) ∈ preprocessData "s1" 1 false [(0, 0)] [5] [7] [1]
      ∧ ({ sid := "s1", step := [7], timestamp := [5], data := [(0, 0)],
           label := none } : Chunk) ∈ preprocessData "s1" 1 true [(0, 0)] [5] [7] [1])
    ∧ (∃ i, i + 1 ≤ [((0 : ℚ), (0 : ℚ))].length
      ∧ ({ sid := "s1", step := [7], timestamp := [5], data := [(0, 0)],
           label := some [1] } : Chunk).data = ([((0 : ℚ), (0 : ℚ))].drop i).take 1
      ∧ ({ sid := "s1", step := [7], timestamp := [5], data := [(0, 0)],
           label := some [1] } : Chunk).timestamp = ([(5 : ℚ)].drop i).take 1
      ∧ ({ sid := "s1", step := [7], timestamp := [5], data := [(0, 0)],
           label := some [1] } : Chunk).step = ([(7 : ℤ)].drop i).take 1
      ∧ ({ sid := "s1", step := [7], timestamp := [5], data := [(0, 0)],
           label := some [1] } : Chunk).label
          = (if false then none else some (([(1 : ℚ)].drop i).take 1))
      ∧ ({ sid := "s1", step := [7], timestamp := [5], data := [(0, 0)],
           label := some [1] } : Chunk).data.length = 1
      ∧ ({ sid := "s1", step := [7], timestamp := [5], data := [(0, 0)],
           label := some [1] } : Chunk).timestamp.length = 1
      ∧ ({ sid := "s1", step := [7], timestamp := [5], data := [(0, 0)],
           label := some [1] } : Chunk).step.length = 1
      ∧ (false = false → ∃ lv,
          ({ sid := "s1", step := [7], timestamp := [5], data := [(0, 0)],
             label := some [1] } : Chunk).label = some lv ∧ lv.length = 1)
      ∧ (false = true →
          ({ sid := "s1", step := [7], timestamp := [5], data := [(0, 0)],
             label := some [1] } : Chunk).label = none))
    ∧ (∃ i, i + 1 ≤ [((0 : ℚ), (0 : ℚ))].length
      ∧ ({ sid := "s1", step := [7], timestamp := [5], data := [(0, 0)],
           label := none } : Chunk).data = ([((0 : ℚ), (0 : ℚ))].drop i).take 1
      ∧ ({ sid := "s1", step := [7], timestamp := [5], data := [(0, 0)],
           label := none } : Chunk).timestamp = ([(5 : ℚ)].drop i).take 1
      ∧ ({ sid := "s1", step := [7], timestamp := [5], data := [(0, 0)],
           label := none } : Chunk).step = ([(7 : ℤ)].drop i).take 1
      ∧ ({ sid := "s1", step := [7], timestamp := [5], data := [(0, 0)],
           label := none } : Chunk).label
          = (if true then none else some (([(1 : ℚ)].drop i).take 1))
      ∧ ({ sid := "s1", step := [7], timestamp := [5], data := [(0, 0)],
           label := none } : Chunk).data.length = 1
      ∧ ({ sid := "s1", step := [7], timestamp := [5], data := [(0, 0)],
           label := none } : Chunk).timestamp.length = 1
      ∧ ({ sid := "s1", step := [7], timestamp := [5], data := [(0, 0)],
           label := none } : Chunk).step.length = 1
      ∧ (true = false → ∃ lv,
          ({ sid := "s1", step := [7], timestamp := [5], data := [(0, 0)],
             label := none } : Chunk).label = some lv ∧ lv.length = 1)
      ∧ (true = true →
          ({ sid := "s1", step := [7], timestamp := [5], data := [(0, 0)],
             label := none } : Chunk).label = none)) :=
  ⟨⟨by decide, by decide, by decide, by decide, by decide, by decide⟩,
   claim10_chunk_alignment "s1" 1 false [(0, 0)] [5] [7] [1] (by decide) (by decide)
     (by decide) (by decide) _ (by decide),
   claim10_chunk_alignment "s1" 1 true [(0, 0)] [5] [7] [1] (by decide) (by decide)
     (by decide) (by decide) _ (by decide)⟩

/-- A single unparseable entry makes the conversion of the whole timestamp
column fail. -/
theorem parseAll_eq_none (parse : String → Option ℚ) (l : List String) (s : String)
    (hs : s ∈ l) (hbad : parse s = none) : parseAll parse l = none := by
  induction l with
  | nil => cases hs
  | cons a t ih =>
    rw [parseAll]
    rcases List.mem_cons.mp hs with h | h
    · rw [← h, hbad]
    · cases hpa : parse a
      · rfl
      · rw [ih h]; rfl

/-- C3: on a series containing a malformed timestamp the observed code does
NOT raise a fatal input-validation error: the bare except branch invokes an
interactive debugger breakpoint, so preprocessing ends in the
debuggerBreakpoint outcome and never in an ok outcome - the spec's required
fatal input-validation error is not what the code does. -/
theorem claim3_malformed_timestamp (parse : String → Option ℚ) (sid : String) (W : ℕ)
    (isTest : Bool) (data : List (ℚ × ℚ)) (rawTs : List String) (step : List ℤ)
    (label : List ℚ) (s : String) (hs : s ∈ rawTs) (hbad : parse s = none) :
    preprocessDataChecked parse sid W isTest data rawTs step label
        = PreprocessOutcome.debuggerBreakpoint
    ∧ ∀ chunks, preprocessDataChecked parse sid W isTest data rawTs step label
        ≠ PreprocessOutcome.ok chunks := by
  have hp : parseAll parse rawTs = none := parseAll_eq_none parse rawTs s hs hbad
  constructor
  · rw [preprocessDataChecked, hp]
  · intro chunks h
    rw [preprocessDataChecked, hp] at h
    cases h

/-- Witness for C3 at a series whose only timestamp fails to parse. -/
theorem claim3_witness :
    ("bad-timestamp" ∈ ["bad-timestamp"]
      ∧ (fun (_ : String) => (none : Option ℚ)) "bad-timestamp" = none)
    ∧ preprocessDataChecked (fun _ => none) "s1" 2 false [(0, 0), (1, 1)]
        ["bad-timestamp"] [0, 1] [0, 1] = PreprocessOutcome.debuggerBreakpoint
    ∧ ∀ chunks, preprocessDataChecked (fun _ => none) "s1" 2 false [(0, 0), (1, 1)]
        ["bad-timestamp"] [0, 1] [0, 1] ≠ PreprocessOutcome.ok chunks :=
  ⟨⟨by decide, rfl⟩,
   claim3_malformed_timestamp (fun _ => none) "s1" 2 false [(0, 0), (1, 1)]
     ["bad-timestamp"] [0, 1] [0, 1] "bad-timestamp" (by decide) rfl⟩

/-- C1: the transition scan at the spec's own example. On cleaned sequence
[0,0,1,1,0] at steps [10,20,30,40,50] for series s1 it emits exactly two
rows, at steps 30 (wakeup) and 50 (onset) with score 1.0 - but both rows
carry None as series_id, not s1: the curr_series variable written into each
row is initialized to None and never assigned the loop's series_id. -/
theorem claim1_transition_scan :
    predictRows [("s1", ([0, 0, 1, 1, 0], [10, 20, 30, 40, 50]))]
      = some [{ rowId := 0, seriesId := none, step := 30, event := "wakeup", score := 1 },
              { rowId := 1, seriesId := none, step := 50, event := "onset", score := 1 }]
    ∧ predictRows [("s1", ([0, 0, 1, 1, 0], [10, 20, 30, 40, 50]))]
      ≠ some [{ rowId := 0, seriesId := some "s1", step := 30, event := "wakeup", score := 1 },
              { rowId := 1, seriesId := some "s1", step := 50, event := "onset", score := 1 }] :=
  ⟨by decide, by decide⟩

/-- C4 counterexample: a series with zero cleaned samples does not yield zero
events without an error - reading preds[0] raises an IndexError (modelled as
none), so the scan returns no event table at all. -/
theorem claim4_counterexample :
    predictRows [("s1", ([], []))] = none
    ∧ predictRows [("s1", ([], []))] ≠ some [] :=
  ⟨rfl, by decide⟩

/-- A series entry with exactly one prediction contributes nothing: its inner
zip is empty, so the scan just moves on with the accumulator unchanged. -/
theorem scanItems_skip_single (d2 : List (String × (List ℕ × List ℤ)))
    (cs : Option String) (acc : List EventRow) (s : String) (p : ℕ) (sts : List ℤ) :
    scanItems cs acc ((s, ([p], sts)) :: d2) = scanItems cs acc d2 := by
  rw [scanItems]
  simp only [List.zip_nil_left]
  rfl

/-- C4 (amended): a series whose cleaned label sequence has exactly one
sample yields zero events and no error - deleting it from the cleaned dict
leaves the scan's output unchanged, and alone it produces the empty event
table; a series with zero samples instead raises an IndexError
(claim4_counterexample). -/
theorem scanItems_skip_middle (d2 : List (String × (List ℕ × List ℤ)))
    (s : String) (p : ℕ) (sts : List ℤ) :
    ∀ (d1 : List (String × (List ℕ × List ℤ))) (cs : Option String) (acc : List EventRow),
      scanItems cs acc (d1 ++ (s, ([p], sts)) :: d2) = scanItems cs acc (d1 ++ d2) := by
  intro d1
  induction d1 with
  | nil => intro cs acc; exact scanItems_skip_single d2 cs acc s p sts
  | cons e t ih =>
    intro cs acc
    obtain ⟨sid, preds, steps⟩ := e
    cases preds with
    | nil => simp only [List.cons_append, scanItems]
    | cons p0 ptl =>
      simp only [List.cons_append, scanItems]
      exact ih cs _

/-- C4 (amended): a series whose cleaned label sequence has exactly one
sample yields zero events and no error - deleting it from the cleaned dict
leaves the scan's output unchanged, and alone it produces the empty event
table; a series with zero samples instead raises an IndexError
(claim4_counterexample). -/
theorem claim4_single_sample (d1 d2 : List (String × (List ℕ × List ℤ)))
    (s : String) (p : ℕ) (sts : List ℤ) :
    predictRows (d1 ++ (s, ([p], sts)) :: d2) = predictRows (d1 ++ d2)
    ∧ predictRows [(s, ([p], sts))] = some [] := by
  constructor
  · exact scanItems_skip_middle d2 s p sts d1 none []
  · rw [predictRows, scanItems_skip_single]
    rfl

/-- Pushing the pass over an element equal to the carried previous label
leaves that element as is. -/
theorem localBestGo_cons_self (p : ℕ) (t : List ℕ) :
    localBestGo p (p :: t) = p :: localBestGo p t := by
  cases t with
  | nil => rfl
  | cons b r =>
    rw [localBestGo, if_neg]
    intro h
    exact h.1 rfl

/-- The local-best pass is idempotent relative to any carried previous label. -/
theorem localBestGo_idem (l : List ℕ) :
    ∀ p : ℕ, localBestGo p (localBestGo p l) = localBestGo p l := by
  induction l with
  | nil => intro p; rfl
  | cons a t ih =>
    intro p
    cases t with
    | nil => rfl
    | cons b r =>
      by_cases h1 : a ≠ p ∧ a ≠ b
      · have hin : localBestGo p (a :: b :: r) = p :: localBestGo p (b :: r) := by
          rw [localBestGo, if_pos h1]
        rw [hin, localBestGo_cons_self, ih p]
      · have hin : localBestGo p (a :: b :: r) = a :: localBestGo a (b :: r) := by
          rw [localBestGo, if_neg h1]
        rw [hin]
        rcases not_and_or.mp h1 with hap | hab
        · have hap' : a = p := not_not.mp hap
          subst hap'
          rw [localBestGo_cons_self, ih a]
        · have hab' : a = b := not_not.mp hab
          subst hab'
          rw [localBestGo_cons_self]
          have hstep : localBestGo p (a :: a :: localBestGo a r)
              = a :: localBestGo a (a :: localBestGo a r) := by
            rw [localBestGo, if_neg]
            intro h
            exact h.2 rfl
          rw [hstep, ← localBestGo_cons_self a r, ih a]

/-- C8: the local-best refinement stage is idempotent - applying it twice to
any cleaned per-series label sequence gives the same sequence as applying it
once. -/
theorem claim8_local_best_idempotent (l : List ℕ) :
    getLocalBest (getLocalBest l) = getLocalBest l := by
  cases l with
  | nil => rfl
  | cons a r =>
    rw [getLocalBest, getLocalBest, localBestGo_idem]

/-- The local-best pass preserves the length of the sequence (the spec's
length-and-alignment contract for the cleaning stages). -/
theorem localBestGo_length (l : List ℕ) :
    ∀ p : ℕ, (localBestGo p l).length = l.length := by
  induction l with
  | nil => intro p; rfl
  | cons a t ih =>
    intro p
    cases t with
    | nil => rfl
    | cons b r =>
      rw [localBestGo]
      by_cases h1 : a ≠ p ∧ a ≠ b
      · rw [if_pos h1, List.length_cons, List.length_cons, ih p]
      · rw [if_neg h1, List.length_cons, List.length_cons, ih a]

theorem getLocalBest_length (l : List ℕ) : (getLocalBest l).length = l.length := by
  cases l with
  | nil => rfl
  | cons a r => rw [getLocalBest, List.length_cons, List.length_cons, localBestGo_length]

/-- The outlier-removal pass preserves the length of the sequence. -/
theorem removeOutliersGo_length (l : List ℕ) :
    ∀ p : ℕ, (removeOutliersGo p l).length = l.length := by
  induction l with
  | nil => intro p; rfl
  | cons a t ih =>
    intro p
    cases t with
    | nil => rfl
    | cons b r =>
      rw [removeOutliersGo, List.length_cons, List.length_cons, ih a]

theorem removeOutliers_length (l : List ℕ) : (removeOutliers l).length = l.length := by
  cases l with
  | nil => rfl
  | cons a r =>
    rw [removeOutliers, List.length_cons, List.length_cons, removeOutliersGo_length]

/-- allSeqs k n enumerates exactly the label sequences of length n. -/
theorem mem_allSeqs {k n : ℕ} {y : List (Fin k)} : y ∈ allSeqs k n ↔ y.length = n := by
  induction n generalizing y with
  | zero =>
    rw [allSeqs]
    constructor
    · intro h
      rw [List.mem_singleton.mp h]
      rfl
    · intro h
      rw [List.length_eq_zero.mp h]
      exact List.mem_singleton.mpr rfl
  | succ m ih =>
    constructor
    · intro h
      rw [allSeqs] at h
      obtain ⟨blk, hblk, hy⟩ := List.mem_flatten.mp h
      obtain ⟨c, _, rfl⟩ := List.mem_map.mp hblk
      obtain ⟨s, hs, rfl⟩ := List.mem_map.mp hy
      rw [List.length_cons, ih.mp hs]
    · intro h
      cases y with
      | nil => exact absurd h (by simp)
      | cons c s =>
        rw [allSeqs]
        apply List.mem_flatten.mpr
        refine ⟨(allSeqs k m).map (fun s => c :: s),
          List.mem_map_of_mem _ (List.mem_finRange c), ?_⟩
        refine List.mem_map_of_mem _ (ih.mpr ?_)
        rw [List.length_cons] at h
        omega

/-- The class-count-positive witness sequence shows allSeqs is nonempty. -/
theorem allSeqs_ne_nil {k : ℕ} (hk : 0 < k) (n : ℕ) : allSeqs k n ≠ [] := by
  intro h
  have hmem : List.replicate n (⟨0, hk⟩ : Fin k) ∈ allSeqs k n :=
    mem_allSeqs.mpr (List.length_replicate n _)
  rw [h] at hmem
  cases hmem

/-- On a nonempty list the first-maximizer fold returns a value. -/
theorem argmaxFirst_cons_isSome {α : Type} (f : α → ℚ) (a : α) (t : List α) :
    (argmaxFirst f (a :: t)).isSome := by
  rw [argmaxFirst]
  cases argmaxFirst f t with
  | none => rfl
  | some y =>
    dsimp only
    by_cases h : f a < f y
    · rw [if_pos h]; rfl
    · rw [if_neg h]; rfl

/-- The first-maximizer fold returns a member attaining the maximum value. -/
theorem argmaxFirst_spec {α : Type} (f : α → ℚ) :
    ∀ (l : List α) (m : α), argmaxFirst f l = some m → m ∈ l ∧ ∀ x ∈ l, f x ≤ f m := by
  intro l
  induction l with
  | nil => intro m h; cases h
  | cons a t ih =>
    intro m h
    rw [argmaxFirst] at h
    cases ht : argmaxFirst f t with
    | none =>
      rw [ht] at h
      have hm : m = a := by cases h; rfl
      subst hm
      have htnil : t = [] := by
        cases t with
        | nil => rfl
        | cons b r =>
          have hsome := argmaxFirst_cons_isSome f b r
          rw [ht] at hsome
          cases hsome
      subst htnil
      refine ⟨List.mem_singleton.mpr rfl, ?_⟩
      intro x hx
      rw [List.mem_singleton.mp hx]
    | some y =>
      rw [ht] at h
      obtain ⟨hymem, hymax⟩ := ih y ht
      dsimp only at h
      by_cases hlt : f a < f y
      · rw [if_pos hlt] at h
        have h2 : y = m := by cases h; rfl
        rw [← h2]
        refine ⟨List.mem_cons_of_mem a hymem, ?_⟩
        intro x hx
        rcases List.mem_cons.mp hx with rfl | hxt
        · exact le_of_lt hlt
        · exact hymax x hxt
      · rw [if_neg hlt] at h
        have h2 : a = m := by cases h; rfl
        rw [← h2]
        refine ⟨List.mem_cons_self a t, ?_⟩
        intro x hx
        rcases List.mem_cons.mp hx with rfl | hxt
        · exact le_refl _
        · exact le_trans (hymax x hxt) (not_lt.mp hlt)

/-- The decoded sequence has the chain length and attains the maximal path
score among all label sequences of that length. -/
theorem crfDecode_spec {k : ℕ} (hk : 0 < k) (e : List (Fin k → ℚ))
    (T : Fin k → Fin k → ℚ) :
    crfDecode e T ∈ allSeqs k e.length
    ∧ ∀ y ∈ allSeqs k e.length, pathScore e T y ≤ pathScore e T (crfDecode e T) := by
  obtain ⟨m, hm⟩ : ∃ m, argmaxFirst (pathScore e T) (allSeqs k e.length) = some m := by
    cases hl : allSeqs k e.length with
    | nil => exact absurd hl (allSeqs_ne_nil hk _)
    | cons a t =>
      exact Option.isSome_iff_exists.mp (argmaxFirst_cons_isSome (pathScore e T) a t)
  have hspec := argmaxFirst_spec (pathScore e T) (allSeqs k e.length) m hm
  rw [crfDecode, hm]
  exact hspec

/-- The partition function is strictly positive: it is a sum of exponentials
over a nonempty enumeration. -/
theorem crfPartition_pos {k : ℕ} (hk : 0 < k) (e : List (Fin k → ℚ))
    (T : Fin k → Fin k → ℚ) : 0 < crfPartition e T := by
  unfold crfPartition
  have hmem : Real.exp ((pathScore e T (List.replicate e.length ⟨0, hk⟩) : ℚ) : ℝ)
      ∈ (allSeqs k e.length).map (fun y => Real.exp ((pathScore e T y : ℚ) : ℝ)) :=
    List.mem_map_of_mem _ (mem_allSeqs.mpr (List.length_replicate _ _))
  have hnonneg : ∀ x ∈ (allSeqs k e.length).map
      (fun y => Real.exp ((pathScore e T y : ℚ) : ℝ)), (0 : ℝ) ≤ x := by
    intro x hx
    obtain ⟨y, _, rfl⟩ := List.mem_map.mp hx
    exact le_of_lt (Real.exp_pos _)
  exact lt_of_lt_of_le (Real.exp_pos _) (List.single_le_sum hnonneg _ hmem)

/-- The negative log-likelihood of any true label sequence of the chain
length is nonnegative: its exponentiated path score is one of the positive
summands of the partition function. -/
theorem crfNll_nonneg {k : ℕ} (hk : 0 < k) (e : List (Fin k → ℚ))
    (T : Fin k → Fin k → ℚ) (t : List (Fin k)) (ht : t.length = e.length) :
    0 ≤ crfNll e T t := by
  unfold crfNll
  rw [sub_nonneg, Real.le_log_iff_exp_le (crfPartition_pos hk e T)]
  unfold crfPartition
  refine List.single_le_sum ?_ _ (List.mem_map_of_mem _ (mem_allSeqs.mpr ht))
  intro x hx
  obtain ⟨y, _, rfl⟩ := List.mem_map.mp hx
  exact le_of_lt (Real.exp_pos _)

/-- C6: the training-mode loss of the model's forward operation - the
negated torchcrf log-likelihood, a sum of per-chain negative
log-likelihoods - is nonnegative for every valid (features, labels) pair. -/
theorem claim6_loss_nonneg {ι : Type} {k : ℕ} (hk : 0 < k)
    (net : ι → List (Fin k → ℚ)) (T : Fin k → Fin k → ℚ)
    (batch : List ι) (tags : List (List (Fin k)))
    (hlen : ∀ col ∈ (tensorCols (batch.map net)).zip (tensorCols tags),
      col.2.length = col.1.length) :
    0 ≤ modelLossTorch net T batch tags := by
  unfold modelLossTorch
  refine List.sum_nonneg ?_
  intro x hx
  obtain ⟨col, hcol, rfl⟩ := List.mem_map.mp hx
  exact crfNll_nonneg hk col.1 T col.2 (hlen col hcol)

/-- Witness for C6 at a one-window, one-step batch with label 0. -/
theorem claim6_witness :
    ((0 < 2)
      ∧ ∀ col ∈ (tensorCols ([()].map (fun _ : Unit => [fun c : Fin 2 => (c.val : ℚ)]))).zip
          (tensorCols [[(0 : Fin 2)]]), col.2.length = col.1.length)
    ∧ 0 ≤ modelLossTorch (fun _ : Unit => [fun c : Fin 2 => (c.val : ℚ)])
        (fun _ _ => 0) [()] [[(0 : Fin 2)]] :=
  ⟨⟨by decide, by decide⟩,
   claim6_loss_nonneg (by decide) (fun _ : Unit => [fun c : Fin 2 => (c.val : ℚ)])
     (fun _ _ => 0) [()] [[(0 : Fin 2)]] (by decide)⟩

/-- C5: the forward operation does NOT return a per-window Viterbi sequence.
Because the CRF layer is constructed with batch_first left False while the
logits are batch-first, the chain runs across the batch axis: on a batch of
one window with two steps, inference returns two length-one sequences - the
per-position decodes [0] and [1] with no transition coupling - whereas the
per-window maximum-score sequence of the spec is the single sequence [1, 1],
selected by the transition scores. -/
theorem claim5_forward_semantics :
    modelDecodeTorch demoNet demoTrans [()] = [[(0 : Fin 2)], [(1 : Fin 2)]]
    ∧ modelDecodeSpec demoNet demoTrans [()] = [[(1 : Fin 2), (1 : Fin 2)]]
    ∧ modelDecodeTorch demoNet demoTrans [()] ≠ modelDecodeSpec demoNet demoTrans [()] := by
  have ht : modelDecodeTorch demoNet demoTrans [()]
      = [crfDecode [fun c : Fin 2 => if c.val = 0 then (1 : ℚ) else 0] demoTrans,
         crfDecode [fun c : Fin 2 => if c.val = 1 then (2 : ℚ) else 0] demoTrans] := rfl
  have h1 : modelDecodeTorch demoNet demoTrans [()] = [[(0 : Fin 2)], [(1 : Fin 2)]] := by
    rw [ht]
    norm_num [crfDecode, allSeqs, argmaxFirst, pathScore, transSum, demoTrans,
      List.finRange, List.flatten]
  have h2 : modelDecodeSpec demoNet demoTrans [()] = [[(1 : Fin 2), (1 : Fin 2)]] := by
    norm_num [modelDecodeSpec, crfDecode, allSeqs, argmaxFirst, pathScore, transSum,
      demoNet, demoTrans, List.finRange, List.flatten]
  refine ⟨h1, h2, ?_⟩
  rw [h1, h2]
  decide

/-- Appending a sample of the same series extends that series' entry. -/
theorem dictAppend_match (s : String) (ps : List ℕ) (ss : List ℤ) (p : ℕ) (st : ℤ) :
    dictAppend [(s, (ps, ss))] s p st = [(s, (ps ++ [p], ss ++ [st]))] := by
  rw [dictAppend, if_pos rfl]

/-- Folding pred_to_dict over samples of one series appends them, in order,
to that series' entry. -/
theorem predToDictGo_replicate (s : String) :
    ∀ (m : ℕ) (ps : List ℕ) (ss : List ℤ) (ps0 : List ℕ) (ss0 : List ℤ),
      ps.length = m → ss.length = m →
      predToDictGo [(s, (ps0, ss0))] (List.replicate m s) ps ss
        = [(s, (ps0 ++ ps, ss0 ++ ss))] := by
  intro m
  induction m with
  | zero =>
    intro ps ss ps0 ss0 hps hss
    rw [List.length_eq_zero.mp hps, List.length_eq_zero.mp hss]
    simp [predToDictGo]
  | succ n ih =>
    intro ps ss ps0 ss0 hps hss
    cases ps with
    | nil => simp at hps
    | cons p pr =>
      cases ss with
      | nil => simp at hss
      | cons st str =>
        rw [List.replicate_succ]
        simp only [predToDictGo]
        rw [dictAppend_match]
        rw [ih pr str (ps0 ++ [p]) (ss0 ++ [st]) (by simpa using hps) (by simpa using hss)]
        simp

/-- pred_to_dict on the flat lists of a single series is one entry holding
exactly those lists: pure concatenation, no reordering, no deduplication. -/
theorem predToDict_single (s : String) (ps : List ℕ) (ss : List ℤ)
    (hlen : ps.length = ss.length) (hne : ps ≠ []) :
    predToDict (List.replicate ps.length s) ps ss = [(s, (ps, ss))] := by
  cases ps with
  | nil => exact absurd rfl hne
  | cons p pr =>
    cases ss with
    | nil => simp at hlen
    | cons st str =>
      rw [predToDict, List.length_cons, List.replicate_succ]
      simp only [predToDictGo]
      rw [show dictAppend [] s p st = [(s, ([p], [st]))] from rfl]
      rw [predToDictGo_replicate s pr.length pr str [p] [st] rfl (by simpa using hlen.symm)]
      simp

/-- The lengths of equally long sublists sum to count times width. -/
theorem sum_map_length_const {α : Type} (L : List (List α)) (W : ℕ)
    (h : ∀ p ∈ L, p.length = W) : (L.map List.length).sum = L.length * W := by
  induction L with
  | nil => simp
  | cons a t ih =>
    rw [List.map_cons, List.sum_cons, ih (fun p hp => h p (List.mem_cons_of_mem a hp)),
      h a (List.mem_cons_self a t), List.length_cons]
    ring

/-- C7: for a series windowed into n = L / W windows of length W, with one
decoded label sequence of length W per window, the reassembled per-series
sequence has length exactly n·W; the concatenated step vector is exactly the
first n·W steps of the series, has length n·W, and stays in ascending order;
and pred_to_dict groups the flat lists into the single series entry holding
exactly those concatenations - pure concatenation with no reordering and no
deduplication. -/
theorem claim7_reassembly (s : String) (W : ℕ) (data : List (ℚ × ℚ)) (ts : List ℚ)
    (step : List ℤ) (label : List ℚ) (decoded : List (List ℕ))
    (hW : 0 < W) (hstep : step.length = data.length)
    (hasc : step.Pairwise (· < ·))
    (hdn : decoded.length = data.length / W)
    (hdW : ∀ p ∈ decoded, p.length = W)
    (hn : 0 < data.length / W) :
    decoded.flatten.length = data.length / W * W
    ∧ ((preprocessData s W true data ts step label).map Chunk.step).flatten
        = step.take (data.length / W * W)
    ∧ ((preprocessData s W true data ts step label).map Chunk.step).flatten.length
        = data.length / W * W
    ∧ ((preprocessData s W true data ts step label).map Chunk.step).flatten.Pairwise (· < ·)
    ∧ predToDict (List.replicate (data.length / W * W) s) decoded.flatten
        (((preprocessData s W true data ts step label).map Chunk.step).flatten)
      = [(s, (decoded.flatten,
              ((preprocessData s W true data ts step label).map Chunk.step).flatten))] := by
  have hlen1 : decoded.flatten.length = data.length / W * W := by
    rw [List.length_flatten, sum_map_length_const decoded W hdW, hdn]
  have hsteps : ((preprocessData s W true data ts step label).map Chunk.step).flatten
      = step.take (data.length / W * W) := by
    rw [preprocessData_eq s W true data ts step label hW, List.map_map]
    exact flatten_slices step W (data.length / W)
  have hmulle : data.length / W * W ≤ step.length := by
    rw [hstep]; exact Nat.div_mul_le_self _ _
  have hlen2 : (step.take (data.length / W * W)).length = data.length / W * W := by
    rw [List.length_take, min_eq_left_iff]; exact hmulle
  refine ⟨hlen1, hsteps, ?_, ?_, ?_⟩
  · rw [hsteps]; exact hlen2
  · rw [hsteps]; exact hasc.sublist (List.take_sublist _ _)
  · rw [hsteps]
    have hre : List.replicate (data.length / W * W) s
        = List.replicate decoded.flatten.length s := by rw [hlen1]
    rw [hre]
    refine predToDict_single s decoded.flatten (step.take (data.length / W * W)) ?_ ?_
    · rw [hlen1, hlen2]
    · have hpos : 0 < data.length / W * W := Nat.mul_pos hn hW
      exact List.length_pos.mp (by rw [hlen1]; exact hpos)

/-- Witness for C7 at a one-window series of window length 1. -/
theorem claim7_witness :
    ((0 < 1) ∧ [(3 : ℤ)].length = [((0 : ℚ), (0 : ℚ))].length
      ∧ [(3 : ℤ)].Pairwise (· < ·)
      ∧ [[(1 : ℕ)]].length = [((0 : ℚ), (0 : ℚ))].length / 1
      ∧ (∀ p ∈ [[(1 : ℕ)]], p.length = 1)
      ∧ 0 < [((0 : ℚ), (0 : ℚ))].length / 1)
    ∧ ([[(1 : ℕ)]].flatten.length = [((0 : ℚ), (0 : ℚ))].length / 1 * 1
      ∧ ((preprocessData "s1" 1 true [(0, 0)] [2] [3] []).map Chunk.step).flatten
          = [(3 : ℤ)].take ([((0 : ℚ), (0 : ℚ))].length / 1 * 1)
      ∧ ((preprocessData "s1" 1 true [(0, 0)] [2] [3] []).map Chunk.step).flatten.length
          = [((0 : ℚ), (0 : ℚ))].length / 1 * 1
      ∧ ((preprocessData "s1" 1 true [(0, 0)] [2] [3] []).map Chunk.step).flatten.Pairwise (· < ·)
      ∧ predToDict (List.replicate ([((0 : ℚ), (0 : ℚ))].length / 1 * 1) "s1") [[(1 : ℕ)]].flatten
          (((preprocessData "s1" 1 true [(0, 0)] [2] [3] []).map Chunk.step).flatten)
        = [("s1", ([[(1 : ℕ)]].flatten,
                   ((preprocessData "s1" 1 true [(0, 0)] [2] [3] []).map Chunk.step).flatten))]) :=
  ⟨⟨by decide, by decide, by decide, by decide, by decide, by decide⟩,
   claim7_reassembly "s1" 1 [(0, 0)] [2] [3] [] [[1]] (by decide) (by decide) (by decide)
     (by decide) (by decide) (by decide)⟩

/-- C9: predict_events never reaches its index-0 collection - on every
nonempty batch list the run aborts with a TypeError in the first iteration,
because the model's inference output is the plain Python list returned by
CRF.decode while torch.max(logits, 2) requires a tensor input. No event
table is ever produced. -/
theorem claim9_pipeline_type_error (net : List (ℚ × ℚ) → List (Fin 2 → ℚ))
    (T : Fin 2 → Fin 2 → ℚ) (batches : List PyBatch) (h : batches ≠ []) :
    predictEvents net T batches = none := by
  cases batches with
  | nil => exact absurd rfl h
  | cons b rest =>
    have hb : collectBatch net T b = none := rfl
    have hall : collectAll net T (b :: rest) = none := by
      rw [collectAll, hb]
    rw [predictEvents, hall]

/-- Witness for C9 at a single trivial batch. -/
theorem claim9_witness :
    ([({ data := [], seriesId := [], step := [] } : PyBatch)] ≠ [])
    ∧ predictEvents (fun _ => []) (fun _ _ => 0)
        [({ data := [], seriesId := [], step := [] } : PyBatch)] = none :=
  ⟨by decide,
   claim9_pipeline_type_error (fun _ => []) (fun _ _ => 0)
     [({ data := [], seriesId := [], step := [] } : PyBatch)] (by decide)⟩

end SleepFormer
